import Mathlib

/-! Verification of the device-communication core of galaxy-buds-gui-rs.

Bytes are modelled as `Nat`, byte vectors as `List Nat`.  The embedded
functions follow the Rust sources: the stream re-framer `process_buffer`
and the reader/worker event loop from `src/buds_worker.rs`, the classifier
`BudsMessage::from_bytes` from `src/model/buds_message.rs`, and the device
discovery filter `discover_galaxy_buds` from `src/app/page_connection.rs`.
-/

/-- Modelled from the spec: `galaxy_buds_rs::message::BOM`, the
Beginning-Of-Message sentinel byte of the external codec crate (the crate
is not part of the sources); scenario S1 of the spec fixes it to `0xFE`. -/
def BOM : Nat := 0xFE

/-- Modelled from the spec: `galaxy_buds_rs::message::EOM`, the
End-Of-Message sentinel byte of the external codec crate; scenario S1 of
the spec fixes it to `0xDD`. -/
def EOM : Nat := 0xDD

/-- `buffer.iter().position(|&b| b == v)`: the index of the first
occurrence of `v` in the list, if any. -/
def findIdxOf (v : Nat) : List Nat → Option Nat
  | [] => none
  | b :: bs => if b = v then some 0 else (findIdxOf v bs).map (· + 1)

/-- The `loop` of `process_buffer` (buds_worker.rs, lines 277-317), with a
fuel argument bounding the number of iterations.  Each iteration of the
complete-message arm removes at least two bytes from the buffer, so
`buffer.length` iterations always suffice (`processBufferAux_stable`). -/
def processBufferAux : Nat → List Nat → List (List Nat) × List Nat
  | 0, buffer => ([], buffer)
  | fuel + 1, buffer =>
    match findIdxOf BOM buffer, findIdxOf EOM buffer with
    | some s, some e =>
      if s < e then
        let frame := (buffer.take (e + 1)).drop s
        let p := processBufferAux fuel (buffer.drop (e + 1))
        (frame :: p.1, p.2)
      else ([], buffer.drop s)
    | some s, none => ([], buffer.drop s)
    | none, _ => ([], [])

/-- `process_buffer` (buds_worker.rs, lines 271-319): extracts all
complete `[BOM, …, EOM]` frames from the buffer, returning the emitted
frames and the residual buffer (the Rust function mutates `buffer` in
place; here the residual is returned). -/
def process_buffer (buffer : List Nat) : List (List Nat) × List Nat :=
  processBufferAux buffer.length buffer

theorem findIdxOf_lt_length {v : Nat} :
    ∀ {l : List Nat} {i : Nat}, findIdxOf v l = some i → i < l.length := by
  intro l
  induction l with
  | nil => intro i h; simp [findIdxOf] at h
  | cons b bs ih =>
    intro i h
    unfold findIdxOf at h
    split at h
    · cases h; simp
    · rw [Option.map_eq_some'] at h
      obtain ⟨j, hj, rfl⟩ := h
      have := ih hj
      simp
      omega

theorem findIdxOf_get {v : Nat} :
    ∀ {l : List Nat} {i : Nat}, findIdxOf v l = some i → l.get? i = some v := by
  intro l
  induction l with
  | nil => intro i h; simp [findIdxOf] at h
  | cons b bs ih =>
    intro i h
    by_cases hbv : b = v
    · simp [findIdxOf, hbv] at h
      subst h
      simp [hbv]
    · simp [findIdxOf, hbv] at h
      obtain ⟨j, hj, rfl⟩ := h
      simpa using ih hj

theorem findIdxOf_none_iff {v : Nat} :
    ∀ {l : List Nat}, findIdxOf v l = none ↔ v ∉ l := by
  intro l
  induction l with
  | nil => simp [findIdxOf]
  | cons b bs ih =>
    by_cases hbv : b = v
    · simp [findIdxOf, hbv]
    · simp [findIdxOf, hbv, ih, Ne.symm hbv]

theorem findIdxOf_append_of_none {v : Nat} {l₁ : List Nat}
    (h : findIdxOf v l₁ = none) (l₂ : List Nat) :
    findIdxOf v (l₁ ++ l₂) = (findIdxOf v l₂).map (· + l₁.length) := by
  induction l₁ with
  | nil => simp
  | cons b bs ih =>
    by_cases hbv : b = v
    · simp [findIdxOf, hbv] at h
    · simp [findIdxOf, hbv] at h ⊢
      rw [ih h]
      cases findIdxOf v l₂ <;> simp
      omega

theorem findIdxOf_cons_self {v : Nat} (t : List Nat) :
    findIdxOf v (v :: t) = some 0 := by
  simp [findIdxOf]

/-- The result of `processBufferAux` does not depend on the fuel once the
fuel is at least the buffer length. -/
theorem processBufferAux_stable :
    ∀ (n : Nat) (buffer : List Nat), buffer.length ≤ n →
      ∀ (m : Nat), buffer.length ≤ m →
        processBufferAux n buffer = processBufferAux m buffer := by
  intro n
  induction n using Nat.strong_induction_on with
  | _ n ih =>
    intro buffer hn m hm
    match n, m with
    | 0, 0 => rfl
    | 0, m + 1 =>
      have : buffer = [] := List.eq_nil_of_length_eq_zero (Nat.le_zero.mp hn)
      subst this
      simp [processBufferAux, findIdxOf]
    | n + 1, 0 =>
      have : buffer = [] := List.eq_nil_of_length_eq_zero (Nat.le_zero.mp hm)
      subst this
      simp [processBufferAux, findIdxOf]
    | n + 1, m + 1 =>
      simp only [processBufferAux]
      cases hb : findIdxOf BOM buffer with
      | none => rfl
      | some s =>
        cases he : findIdxOf EOM buffer with
        | none => rfl
        | some e =>
          by_cases hse : s < e
          · simp only [hse, if_true]
            have helt : e < buffer.length := findIdxOf_lt_length he
            have hrest : (buffer.drop (e + 1)).length ≤ n := by
              simp [List.length_drop]
              omega
            have hrest2 : (buffer.drop (e + 1)).length ≤ m := by
              simp [List.length_drop]
              omega
            rw [ih n (Nat.lt_succ_self n) _ hrest m hrest2]
          · simp [hse]

/-- Unfolding equation for the complete-message arm of `process_buffer`:
garbage before the BOM is discarded, the `[s, e]` slice is emitted, the
buffer is drained through `e`, and the scan repeats. -/
theorem process_buffer_emit {buffer : List Nat} {s e : Nat}
    (hs : findIdxOf BOM buffer = some s) (he : findIdxOf EOM buffer = some e)
    (hse : s < e) :
    process_buffer buffer =
      (((buffer.take (e + 1)).drop s) :: (process_buffer (buffer.drop (e + 1))).1,
        (process_buffer (buffer.drop (e + 1))).2) := by
  have hlen : 0 < buffer.length := by have := findIdxOf_lt_length hs; omega
  unfold process_buffer
  obtain ⟨k, hk⟩ : ∃ k, buffer.length = k + 1 := ⟨buffer.length - 1, by omega⟩
  rw [hk]
  simp only [processBufferAux, hs, he, hse, if_true]
  have helt : e < buffer.length := findIdxOf_lt_length he
  have : processBufferAux k (buffer.drop (e + 1)) =
      processBufferAux (buffer.drop (e + 1)).length (buffer.drop (e + 1)) := by
    apply processBufferAux_stable
    · simp [List.length_drop]; omega
    · exact Nat.le_refl _
  rw [this]

/-- Unfolding equation for the incomplete-message arm: a BOM was found but
the first EOM (if any) is not past it; garbage before the BOM is dropped
and the rest is kept. -/
theorem process_buffer_keep {buffer : List Nat} {s : Nat}
    (hs : findIdxOf BOM buffer = some s)
    (hnot : ∀ e, findIdxOf EOM buffer = some e → ¬ s < e) :
    process_buffer buffer = ([], buffer.drop s) := by
  have hlen : 0 < buffer.length := by have := findIdxOf_lt_length hs; omega
  unfold process_buffer
  obtain ⟨k, hk⟩ : ∃ k, buffer.length = k + 1 := ⟨buffer.length - 1, by omega⟩
  rw [hk]
  cases he : findIdxOf EOM buffer with
  | none => simp [processBufferAux, hs, he]
  | some e => simp [processBufferAux, hs, he, hnot e he]

/-- Unfolding equation for the no-BOM arm: the buffer is cleared and
nothing is emitted. -/
theorem process_buffer_clear {buffer : List Nat}
    (h : findIdxOf BOM buffer = none) :
    process_buffer buffer = ([], []) := by
  unfold process_buffer
  cases buffer with
  | nil => rfl
  | cons b bs => simp [processBufferAux, h]

/-- A well-formed wire frame (§3 of the spec, `Frame`): at least 4 bytes,
beginning with `BOM`, ending with `EOM`, and containing `EOM` nowhere
before its final byte. -/
def isFrame (f : List Nat) : Prop :=
  4 ≤ f.length ∧ f.head? = some BOM ∧ f.getLast? = some EOM ∧ EOM ∉ f.dropLast

instance (f : List Nat) : Decidable (isFrame f) := by
  unfold isFrame; infer_instance

/-- The shape of an in-progress residue between reads: empty, or a strict
left part of a frame (beginning with `BOM`, no `EOM` received yet). -/
def IncompleteFrame (t : List Nat) : Prop :=
  t = [] ∨ (t.head? = some BOM ∧ EOM ∉ t)

instance (t : List Nat) : Decidable (IncompleteFrame t) := by
  unfold IncompleteFrame; infer_instance

theorem isFrame_head {f : List Nat} (hf : isFrame f) : ∃ t, f = BOM :: t := by
  obtain ⟨-, hh, -, -⟩ := hf
  cases f with
  | nil => simp at hh
  | cons b bs => simp at hh; exact ⟨bs, by rw [hh]⟩

theorem isFrame_decomp {f : List Nat} (hf : isFrame f) :
    f.dropLast ++ [EOM] = f := by
  obtain ⟨-, -, hl, -⟩ := hf
  exact List.dropLast_append_getLast? EOM (Option.mem_def.mpr hl)

theorem findIdxOf_BOM_frame {f : List Nat} (hf : isFrame f) (t : List Nat) :
    findIdxOf BOM (f ++ t) = some 0 := by
  obtain ⟨u, rfl⟩ := isFrame_head hf
  simpa using findIdxOf_cons_self (u ++ t)

theorem findIdxOf_EOM_frame {f : List Nat} (hf : isFrame f) (t : List Nat) :
    findIdxOf EOM (f ++ t) = some (f.length - 1) := by
  have hd : f.dropLast ++ [EOM] = f := isFrame_decomp hf
  have hnone : findIdxOf EOM f.dropLast = none := findIdxOf_none_iff.mpr hf.2.2.2
  calc findIdxOf EOM (f ++ t)
      = findIdxOf EOM (f.dropLast ++ ([EOM] ++ t)) := by
        rw [← List.append_assoc, hd]
    _ = (findIdxOf EOM ([EOM] ++ t)).map (· + f.dropLast.length) :=
        findIdxOf_append_of_none hnone _
    _ = some (f.length - 1) := by
        rw [List.singleton_append, findIdxOf_cons_self]
        simp [List.length_dropLast]

/-- A buffer that starts with a complete well-formed frame: the frame is
emitted first and processing continues on the remainder. -/
theorem process_buffer_frame {f : List Nat} (hf : isFrame f) (t : List Nat) :
    process_buffer (f ++ t) =
      (f :: (process_buffer t).1, (process_buffer t).2) := by
  have h4 : 4 ≤ f.length := hf.1
  have hse : 0 < f.length - 1 := by omega
  have heq := process_buffer_emit (findIdxOf_BOM_frame hf t) (findIdxOf_EOM_frame hf t) hse
  have h1 : f.length - 1 + 1 = f.length := by omega
  rw [h1, List.take_left, List.drop_left] at heq
  simpa using heq

/-- A concatenation of complete frames followed by an incomplete residue:
all the frames are emitted and the residue is kept. -/
theorem process_buffer_flatten {fs : List (List Nat)} (hfs : ∀ f ∈ fs, isFrame f)
    {t : List Nat} (ht : IncompleteFrame t) :
    process_buffer (fs.flatten ++ t) = (fs, t) := by
  induction fs with
  | nil =>
    simp only [List.flatten_nil, List.nil_append]
    rcases ht with rfl | ⟨hh, hno⟩
    · exact process_buffer_clear (by simp [findIdxOf])
    · obtain ⟨u, rfl⟩ : ∃ u, t = BOM :: u := by
        cases t with
        | nil => simp at hh
        | cons b bs => simp at hh; exact ⟨bs, by rw [hh]⟩
      have := process_buffer_keep (findIdxOf_cons_self u)
        (by intro e he; rw [findIdxOf_none_iff.mpr hno] at he; cases he)
      simpa using this
  | cons f fs ih =>
    have hf : isFrame f := hfs f (by simp)
    have hfs2 : ∀ g ∈ fs, isFrame g := fun g hg => hfs g (by simp [hg])
    rw [List.flatten_cons, List.append_assoc, process_buffer_frame hf, ih hfs2]

/-- Any left part of a concatenation of well-formed frames splits into the
complete frames it covers, followed by an incomplete-frame remainder. -/
theorem frames_split :
    ∀ (fs : List (List Nat)) (P Q : List Nat), (∀ f ∈ fs, isFrame f) →
      P ++ Q = fs.flatten →
      ∃ fs1 fs2 t, fs = fs1 ++ fs2 ∧ P = fs1.flatten ++ t ∧
        IncompleteFrame t ∧ t ++ Q = fs2.flatten := by
  intro fs
  induction fs with
  | nil =>
    intro P Q hfs h
    simp at h
    exact ⟨[], [], [], by simp, by simp [h.1], Or.inl rfl, by simp [h.1, h.2]⟩
  | cons f fs ih =>
    intro P Q hfs h
    have hf : isFrame f := hfs f (by simp)
    have hfs2 : ∀ g ∈ fs, isFrame g := fun g hg => hfs g (by simp [hg])
    rw [List.flatten_cons] at h
    by_cases hle : f.length ≤ P.length
    · have h1 := congrArg (List.take f.length) h
      rw [List.take_append_eq_append_take, Nat.sub_eq_zero_of_le hle,
        List.take_zero, List.append_nil, List.take_left] at h1
      have hP : P = f ++ P.drop f.length := by
        conv_lhs => rw [← List.take_append_drop f.length P]
        rw [h1]
      have hrest : P.drop f.length ++ Q = fs.flatten := by
        have h2 := congrArg (List.drop f.length) h
        rw [List.drop_append_eq_append_drop, Nat.sub_eq_zero_of_le hle,
          List.drop_zero, List.drop_left] at h2
        exact h2
      obtain ⟨fs1, fs2, t, hfseq, hPeq, ht, htQ⟩ := ih (P.drop f.length) Q hfs2 hrest
      refine ⟨f :: fs1, fs2, t, by simp [hfseq], ?_, ht, htQ⟩
      rw [hP, hPeq, List.flatten_cons, List.append_assoc]
    · push_neg at hle
      have htake : P = f.take P.length := by
        have h1 := congrArg (List.take P.length) h
        rw [List.take_append_eq_append_take, List.take_append_eq_append_take,
          Nat.sub_self, List.take_zero, List.append_nil,
          Nat.sub_eq_zero_of_le (Nat.le_of_lt hle), List.take_zero,
          List.append_nil, List.take_length] at h1
        exact h1
      refine ⟨[], f :: fs, P, by simp, by simp, ?_, by rw [List.flatten_cons]; exact h⟩
      rcases Nat.eq_zero_or_pos P.length with hz | hpos
      · exact Or.inl (List.eq_nil_of_length_eq_zero hz)
      · refine Or.inr ⟨?_, ?_⟩
        · obtain ⟨u, hfu⟩ := isFrame_head hf
          rw [htake, hfu]
          obtain ⟨m, hm⟩ : ∃ m, P.length = m + 1 := ⟨P.length - 1, by omega⟩
          rw [hm]
          simp
        · intro hmem
          rw [htake] at hmem
          have hPl : P.length ≤ f.length - 1 := by omega
          have hsub : f.take P.length = f.dropLast.take P.length := by
            rw [List.dropLast_eq_take, List.take_take, min_eq_left hPl]
          rw [hsub] at hmem
          exact hf.2.2.2 (List.take_subset _ _ hmem)

/-- The reader loop's repeated use of the re-framer (buds_worker.rs,
read_task lines 233-247): each chunk read from the stream is appended to
the carried buffer, which is then re-framed; the residual is carried to
the next read. -/
def feedChunks : List Nat → List (List Nat) → List (List Nat) × List Nat
  | buf, [] => ([], buf)
  | buf, c :: cs =>
    ((process_buffer (buf ++ c)).1 ++ (feedChunks (process_buffer (buf ++ c)).2 cs).1,
      (feedChunks (process_buffer (buf ++ c)).2 cs).2)

theorem feedChunks_spec :
    ∀ (chunks fs : List (List Nat)) (r : List Nat),
      (∀ f ∈ fs, isFrame f) → IncompleteFrame r →
      r ++ chunks.flatten = fs.flatten → feedChunks r chunks = (fs, []) := by
  intro chunks
  induction chunks with
  | nil =>
    intro fs r hfs hr h
    simp at h
    cases fs with
    | nil =>
      simp at h
      simp [feedChunks, h]
    | cons f fs2 =>
      exfalso
      have hf : isFrame f := hfs f (by simp)
      have hEOMf : EOM ∈ f := by
        have hd := isFrame_decomp hf
        rw [← hd]; simp
      have hEOMr : EOM ∈ r := by
        rw [h, List.flatten_cons]
        exact List.mem_append_left _ hEOMf
      rcases hr with rfl | ⟨-, hno⟩
      · simp at hEOMr
      · exact hno hEOMr
  | cons c cs ih =>
    intro fs r hfs hr h
    rw [List.flatten_cons, ← List.append_assoc] at h
    obtain ⟨fs1, fs2, t, hfseq, hPeq, ht, htQ⟩ := frames_split fs (r ++ c) cs.flatten hfs h
    have hfs1 : ∀ f ∈ fs1, isFrame f := fun f hmem =>
      hfs f (by rw [hfseq]; exact List.mem_append_left _ hmem)
    have hfs2 : ∀ f ∈ fs2, isFrame f := fun f hmem =>
      hfs f (by rw [hfseq]; exact List.mem_append_right _ hmem)
    have hp : process_buffer (r ++ c) = (fs1, t) := by
      rw [hPeq]
      exact process_buffer_flatten hfs1 ht
    have hq : feedChunks t cs = (fs2, []) := ih fs2 t hfs2 ht htQ
    simp only [feedChunks, hp, hq]
    rw [← hfseq]

theorem head_bom_decomp {t : List Nat} (hh : t.head? = some BOM) :
    ∃ u, t = BOM :: u := by
  cases t with
  | nil => simp at hh
  | cons b bs => simp at hh; exact ⟨bs, by rw [hh]⟩

/-- Bytes containing neither `BOM` nor `EOM` in front of the buffer are
transparent to the re-framer. -/
theorem process_buffer_skip_garbage {g : List Nat} (t : List Nat)
    (hB : BOM ∉ g) (hE : EOM ∉ g) :
    process_buffer (g ++ t) = process_buffer t := by
  have hB2 := findIdxOf_append_of_none (findIdxOf_none_iff.mpr hB) t
  have hE2 := findIdxOf_append_of_none (findIdxOf_none_iff.mpr hE) t
  cases hbt : findIdxOf BOM t with
  | none =>
    rw [hbt] at hB2; simp at hB2
    rw [process_buffer_clear hB2, process_buffer_clear hbt]
  | some s =>
    rw [hbt] at hB2; simp at hB2
    cases het : findIdxOf EOM t with
    | none =>
      rw [het] at hE2; simp at hE2
      rw [process_buffer_keep hB2 (by intro e he; rw [hE2] at he; cases he),
        process_buffer_keep hbt (by intro e he; rw [het] at he; cases he)]
      rw [Nat.add_comm s g.length, List.drop_append]
    | some e =>
      rw [het] at hE2; simp at hE2
      by_cases hse : s < e
      · have hse2 : s + g.length < e + g.length := by omega
        rw [process_buffer_emit hB2 hE2 hse2, process_buffer_emit hbt het hse]
        have h1 : (g ++ t).take (e + g.length + 1) = g ++ t.take (e + 1) := by
          rw [show e + g.length + 1 = g.length + (e + 1) by omega, List.take_append]
        have h2 : (g ++ t).drop (e + g.length + 1) = t.drop (e + 1) := by
          rw [show e + g.length + 1 = g.length + (e + 1) by omega, List.drop_append]
        have h3 : (g ++ t.take (e + 1)).drop (s + g.length) = (t.take (e + 1)).drop s := by
          rw [show s + g.length = g.length + s by omega, List.drop_append]
        rw [h1, h2, h3]
      · have hnot1 : ∀ e2, findIdxOf EOM (g ++ t) = some e2 → ¬ s + g.length < e2 := by
          intro e2 he2
          rw [hE2] at he2
          injection he2 with h2
          omega
        have hnot2 : ∀ e2, findIdxOf EOM t = some e2 → ¬ s < e2 := by
          intro e2 he2
          rw [het] at he2
          injection he2 with h2
          omega
        rw [process_buffer_keep hB2 hnot1, process_buffer_keep hbt hnot2]
        rw [Nat.add_comm s g.length, List.drop_append]

/-- Garbage containing no `BOM` in front of an incomplete frame is
discarded and nothing is emitted. -/
theorem process_buffer_garbage_then_incomplete {g t : List Nat} (hB : BOM ∉ g)
    (ht : IncompleteFrame t) : process_buffer (g ++ t) = ([], t) := by
  have hB2 := findIdxOf_append_of_none (findIdxOf_none_iff.mpr hB) t
  rcases ht with rfl | ⟨hh, hno⟩
  · rw [List.append_nil, process_buffer_clear (findIdxOf_none_iff.mpr hB)]
  · obtain ⟨u, rfl⟩ := head_bom_decomp hh
    rw [findIdxOf_cons_self] at hB2
    simp at hB2
    have hnot : ∀ e, findIdxOf EOM (g ++ BOM :: u) = some e → ¬ g.length < e := by
      intro e he hlt
      have hget := findIdxOf_get he
      rw [List.get?_append_right (by omega)] at hget
      exact hno (List.get?_mem hget)
    rw [process_buffer_keep hB2 hnot, List.drop_left]

/-- A sequence of frames with garbage spliced between consecutive frames:
`glue [F1, …, Fn] [g1, …]` is `F1 ++ g1 ++ F2 ++ g2 ++ … ++ Fn` (garbage
beyond the frame count is unused; a missing garbage list means plain
concatenation from there on). -/
def glue : List (List Nat) → List (List Nat) → List Nat
  | [], _ => []
  | [f], _ => f
  | f :: fs, [] => f ++ glue fs []
  | f :: fs, g :: gs => f ++ (g ++ glue fs gs)

theorem process_buffer_glue :
    ∀ (fs gs : List (List Nat)), (∀ f ∈ fs, isFrame f) →
      (∀ g ∈ gs, BOM ∉ g ∧ EOM ∉ g) →
      process_buffer (glue fs gs) = (fs, []) := by
  intro fs
  induction fs with
  | nil =>
    intro gs hfs hgs
    have : process_buffer [] = ([], []) := rfl
    simpa [glue] using this
  | cons f fs ih =>
    intro gs hfs hgs
    have hf : isFrame f := hfs f (by simp)
    have hfs2 : ∀ g ∈ fs, isFrame g := fun g hg => hfs g (by simp [hg])
    cases fs with
    | nil =>
      have h0 : glue [f] gs = f := by cases gs <;> rfl
      have h1 := process_buffer_frame hf []
      rw [List.append_nil] at h1
      rw [h0, h1]
      rfl
    | cons f2 fs2 =>
      cases gs with
      | nil =>
        show process_buffer (f ++ glue (f2 :: fs2) []) = _
        rw [process_buffer_frame hf, ih [] hfs2 (by simp)]
      | cons g gs2 =>
        have hg : BOM ∉ g ∧ EOM ∉ g := hgs g (by simp)
        have hgs2 : ∀ g2 ∈ gs2, BOM ∉ g2 ∧ EOM ∉ g2 := fun g2 h2 => hgs g2 (by simp [h2])
        show process_buffer (f ++ (g ++ glue (f2 :: fs2) gs2)) = _
        rw [process_buffer_frame hf,
          process_buffer_skip_garbage (glue (f2 :: fs2) gs2) hg.1 hg.2,
          ih gs2 hfs2 hgs2]

/-- The residual buffer after a call is empty or begins at a BOM byte. -/
theorem process_buffer_residual_aux :
    ∀ (n : Nat) (buffer : List Nat), buffer.length ≤ n →
      (process_buffer buffer).2 = [] ∨
        ((process_buffer buffer).2).head? = some BOM := by
  intro n
  induction n using Nat.strong_induction_on with
  | _ n ih =>
    intro buffer hn
    cases hb : findIdxOf BOM buffer with
    | none => rw [process_buffer_clear hb]; exact Or.inl rfl
    | some s =>
      have hkeep : ((buffer.drop s) : List Nat).head? = some BOM := by
        rw [List.head?_drop]
        have := findIdxOf_get hb
        rwa [List.get?_eq_getElem?] at this
      cases he : findIdxOf EOM buffer with
      | none =>
        rw [process_buffer_keep hb (by intro e h; rw [he] at h; cases h)]
        exact Or.inr hkeep
      | some e =>
        by_cases hse : s < e
        · rw [process_buffer_emit hb he hse]
          have hlen : 0 < buffer.length := by have := findIdxOf_lt_length hb; omega
          have hlt : e < buffer.length := findIdxOf_lt_length he
          have hn1 : (buffer.drop (e + 1)).length ≤ n - 1 := by
            simp [List.length_drop]; omega
          have := ih (n - 1) (by omega) (buffer.drop (e + 1)) hn1
          simpa using this
        · rw [process_buffer_keep hb
            (by intro e2 he2; rw [he] at he2; injection he2 with h2; omega)]
          exact Or.inr hkeep

/-- Modelled from the spec: `galaxy_buds_rs::message::ids::STATUS_UPDATED`
of the external codec crate (absent from the sources); scenario S2 of the
spec gives 97. -/
def STATUS_UPDATED : Nat := 97

/-- Modelled from the spec:
`galaxy_buds_rs::message::ids::EXTENDED_STATUS_UPDATED` of the external
codec crate; scenario S4 of the spec gives 98. -/
def EXTENDED_STATUS_UPDATED : Nat := 98

/-- `BudsMessage` (model/buds_message.rs, lines 9-15).  The payload
decoding of the two status variants is delegated to the external codec
(`Message::new(buff, Model::BudsLive).into()`), so each variant keeps the
raw frame bytes. -/
inductive BudsMessage where
  | statusUpdate (raw : List Nat)
  | extendedStatusUpdate (raw : List Nat)
  | unknown (id : Nat) (buffer : List Nat)
deriving DecidableEq

/-- `BudsMessage::from_bytes` (model/buds_message.rs, lines 21-44):
buffers shorter than 4 bytes and id 242 yield `None` (ignored); otherwise
the id byte at index 3 selects the variant, defaulting to `Unknown`. -/
def from_bytes (buff : List Nat) : Option BudsMessage :=
  if buff.length < 4 then none
  else
    let id := buff.getD 3 0
    if id = 242 then none
    else if id = STATUS_UPDATED then some (BudsMessage.statusUpdate buff)
    else if id = EXTENDED_STATUS_UPDATED then some (BudsMessage.extendedStatusUpdate buff)
    else some (BudsMessage.unknown id buff)

/-- The distinct error strings produced by the worker
(buds_worker.rs): `"Cannot send data: Not connected"` (line 201),
`"Send data failed: {e}"` (line 194), `"Read error: {e}"` (line 253), and
`"Connection failed: {e}"` (line 147). -/
inductive BWError where
  | notConnected
  | sendDataFailed (e : String)
  | readError (e : String)
  | connectionFailed (e : String)
deriving DecidableEq

/-- `BudsWorkerOutput` (buds_worker.rs, lines 47-56). -/
inductive BWOutput where
  | connected
  | disconnected
  | dataReceived (m : BudsMessage)
  | error (e : BWError)
deriving DecidableEq

/-- The shared mutable state of a `BluetoothWorker` session:
`is_running` is the atomic flag, `writerSome` says whether the
`Arc<Mutex<Option<OwnedWriteHalf>>>` slot currently holds a writer,
`readerExited` says whether the spawned `read_task` has already run its
terminal emit, and `readBuf` is the reader's persistent `read_buffer`. -/
structure BWState where
  is_running : Bool
  writerSome : Bool
  readerExited : Bool
  readBuf : List Nat
deriving DecidableEq

/-- One scheduler-visible event of a session: a UI input handled by
`handle_input`, or one step of the spawned `read_task`.
`sendData` carries the outcome of `stream.write_all` (`none` = success);
`readerChunk` is a successful read `Ok(n)` delivering `bytes`;
`readerEof` is `Ok(0)`; `readerErr e` is `Err(e)`; `readerStop` is the
loop condition observing `is_running == false`. -/
inductive BWEvent where
  | disconnect
  | sendData (data : List Nat) (writeErr : Option String)
  | readerChunk (bytes : List Nat)
  | readerEof
  | readerErr (e : String)
  | readerStop
deriving DecidableEq

/-- The effect of one event on the session state, with the outputs it
emits, transcribed from `handle_input` (lines 101-119), `send_data`
(lines 191-207) and `read_task` (lines 215-269) of buds_worker.rs.
Reader events after the reader has exited are no-ops. -/
def stepEvent (s : BWState) : BWEvent → BWState × List BWOutput
  | BWEvent.disconnect =>
    ({ s with is_running := false, writerSome := false }, [BWOutput.disconnected])
  | BWEvent.sendData _ writeErr =>
    if s.writerSome then
      match writeErr with
      | none => (s, [])
      | some e => (s, [BWOutput.error (BWError.sendDataFailed e)])
    else (s, [BWOutput.error BWError.notConnected])
  | BWEvent.readerChunk bytes =>
    if s.readerExited then (s, [])
    else
      ({ s with readBuf := (process_buffer (s.readBuf ++ bytes)).2 },
        ((process_buffer (s.readBuf ++ bytes)).1.filterMap from_bytes).map
          BWOutput.dataReceived)
  | BWEvent.readerEof =>
    if s.readerExited then (s, [])
    else ({ s with is_running := false, readerExited := true }, [BWOutput.disconnected])
  | BWEvent.readerErr e =>
    if s.readerExited then (s, [])
    else if s.is_running then
      ({ s with is_running := false, readerExited := true },
        [BWOutput.error (BWError.readError e), BWOutput.disconnected])
    else
      ({ s with is_running := false, readerExited := true }, [BWOutput.disconnected])
  | BWEvent.readerStop =>
    if s.readerExited then (s, [])
    else if s.is_running then (s, [])
    else ({ s with readerExited := true }, [BWOutput.disconnected])

/-- Run a whole interleaving of events, concatenating the emitted
outputs in order. -/
def runEvents (s : BWState) : List BWEvent → BWState × List BWOutput
  | [] => (s, [])
  | e :: evs =>
    ((runEvents (stepEvent s e).1 evs).1,
      (stepEvent s e).2 ++ (runEvents (stepEvent s e).1 evs).2)

/-- The state right after a successful `connect`: the writer is stored,
`is_running` is true, the reader task is alive with an empty buffer. -/
def connectedInit : BWState := ⟨true, true, false, []⟩

/-- The `Idle` state: no writer stored, not running, no reader task. -/
def idleInit : BWState := ⟨false, false, true, []⟩

theorem stepEvent_readerExited_mono {s : BWState} (e : BWEvent)
    (h : s.readerExited = true) : (stepEvent s e).1.readerExited = true := by
  cases e with
  | disconnect => simpa [stepEvent] using h
  | sendData d w =>
    have h1 : (stepEvent s (BWEvent.sendData d w)).1 = s := by
      simp only [stepEvent]
      split
      · cases w <;> rfl
      · rfl
    rw [h1]; exact h
  | readerChunk b => simp [stepEvent, h]
  | readerEof => simp [stepEvent, h]
  | readerErr e2 => simp [stepEvent, h]
  | readerStop => simp [stepEvent, h]

theorem runEvents_readerExited_mono :
    ∀ (evs : List BWEvent) (s : BWState), s.readerExited = true →
      (runEvents s evs).1.readerExited = true := by
  intro evs
  induction evs with
  | nil => intro s h; exact h
  | cons e evs ih =>
    intro s h
    exact ih (stepEvent s e).1 (stepEvent_readerExited_mono e h)

theorem count_disconnected_map_dataReceived (ms : List BudsMessage) :
    List.count BWOutput.disconnected (ms.map BWOutput.dataReceived) = 0 := by
  induction ms with
  | nil => rfl
  | cons m ms ih => simp [List.count_cons, ih]

/-- Output count of `Disconnected` over any interleaving: one per handled
`Disconnect` input, plus one from the reader task's terminal emit if the
reader exited during the interleaving. -/
theorem runEvents_count_disc :
    ∀ (evs : List BWEvent) (s : BWState),
      List.count BWOutput.disconnected (runEvents s evs).2 =
        List.count BWEvent.disconnect evs +
          (if s.readerExited then 0 else
            if (runEvents s evs).1.readerExited then 1 else 0) := by
  intro evs
  induction evs with
  | nil =>
    intro s
    by_cases h : s.readerExited <;> simp [runEvents, h]
  | cons e evs ih =>
    intro s
    have hrun : runEvents s (e :: evs) =
        ((runEvents (stepEvent s e).1 evs).1,
          (stepEvent s e).2 ++ (runEvents (stepEvent s e).1 evs).2) := rfl
    rw [hrun]
    simp only [List.count_append, List.count_cons]
    rw [ih]
    cases e with
    | disconnect =>
      have hre : ((stepEvent s BWEvent.disconnect).1).readerExited = s.readerExited := rfl
      have hout : (stepEvent s BWEvent.disconnect).2 = [BWOutput.disconnected] := rfl
      rw [hre, hout]
      by_cases h : s.readerExited <;> simp [h] <;> omega
    | sendData d w =>
      have h1 : (stepEvent s (BWEvent.sendData d w)).1 = s := by
        simp only [stepEvent]
        split
        · cases w <;> rfl
        · rfl
      have h2 : List.count BWOutput.disconnected (stepEvent s (BWEvent.sendData d w)).2 = 0 := by
        simp only [stepEvent]
        split
        · cases w <;> simp
        · simp
      rw [h1, h2]
      simp
    | readerChunk b =>
      by_cases h : s.readerExited
      · have h1 : stepEvent s (BWEvent.readerChunk b) = (s, []) := by
          simp [stepEvent, h]
        rw [h1]
        simp [h]
      · rw [Bool.not_eq_true] at h
        have h1 : (stepEvent s (BWEvent.readerChunk b)).1.readerExited = s.readerExited := by
          simp [stepEvent, h]
        have h2 : List.count BWOutput.disconnected (stepEvent s (BWEvent.readerChunk b)).2 = 0 := by
          simp only [stepEvent, h, Bool.false_eq_true, if_false]
          exact count_disconnected_map_dataReceived _
        rw [h1, h2]
        simp
    | readerEof =>
      by_cases h : s.readerExited
      · have h1 : stepEvent s BWEvent.readerEof = (s, []) := by simp [stepEvent, h]
        rw [h1]
        simp [h]
      · rw [Bool.not_eq_true] at h
        have h1 : (stepEvent s BWEvent.readerEof).1.readerExited = true := by
          simp [stepEvent, h]
        have h2 : (stepEvent s BWEvent.readerEof).2 = [BWOutput.disconnected] := by
          simp [stepEvent, h]
        have h3 : (runEvents (stepEvent s BWEvent.readerEof).1 evs).1.readerExited = true :=
          runEvents_readerExited_mono evs _ h1
        rw [h2, h1, h3]
        simp [h]
        omega
    | readerErr e2 =>
      by_cases h : s.readerExited
      · have h1 : stepEvent s (BWEvent.readerErr e2) = (s, []) := by simp [stepEvent, h]
        rw [h1]
        simp [h]
      · rw [Bool.not_eq_true] at h
        have h1 : (stepEvent s (BWEvent.readerErr e2)).1.readerExited = true := by
          simp only [stepEvent, h, Bool.false_eq_true, if_false]
          split <;> rfl
        have h2 : List.count BWOutput.disconnected (stepEvent s (BWEvent.readerErr e2)).2 = 1 := by
          simp only [stepEvent, h, Bool.false_eq_true, if_false]
          split <;> simp
        have h3 : (runEvents (stepEvent s (BWEvent.readerErr e2)).1 evs).1.readerExited = true :=
          runEvents_readerExited_mono evs _ h1
        rw [h2, h1, h3]
        simp [h]
        omega
    | readerStop =>
      by_cases h : s.readerExited
      · have h1 : stepEvent s BWEvent.readerStop = (s, []) := by simp [stepEvent, h]
        rw [h1]
        simp [h]
      · rw [Bool.not_eq_true] at h
        by_cases hr : s.is_running
        · have h1 : stepEvent s BWEvent.readerStop = (s, []) := by
            simp [stepEvent, h, hr]
          rw [h1]
          simp [h]
        · rw [Bool.not_eq_true] at hr
          have h1 : (stepEvent s BWEvent.readerStop).1.readerExited = true := by
            simp [stepEvent, h, hr]
          have h2 : (stepEvent s BWEvent.readerStop).2 = [BWOutput.disconnected] := by
            simp [stepEvent, h, hr]
          have h3 : (runEvents (stepEvent s BWEvent.readerStop).1 evs).1.readerExited = true :=
            runEvents_readerExited_mono evs _ h1
          rw [h2, h1, h3]
          simp [h]
          omega

/-- Modelled from the spec: `crate::consts::SAMSUNG_SPP_UUID` (consts.rs
is absent from the sources); §6 of the spec gives the vendor SPP UUID
string. -/
def SAMSUNG_SPP_UUID : String := "2e73a4ad-332d-41fc-90e2-16bef06523f2"

/-- Outcome of `device.uuids().await` for one device: `Err(_)`,
`Ok(None)`, or `Ok(Some(uuids))`. -/
inductive UuidsReply where
  | err
  | okNone
  | okSome (us : List String)
deriving DecidableEq

/-- A paired device as seen by `discover_galaxy_buds`: an opaque address
and the reply its UUID query will produce. -/
structure BDevice where
  addr : Nat
  uuidsReply : UuidsReply
deriving DecidableEq

/-- `discover_galaxy_buds` (page_connection.rs, lines 208-243).
`poweredOk` is the outcome of `adapter.set_powered(true)`, `addrsReply`
the outcome of `adapter.device_addresses()` (`none` = `Err`), with each
entry the result of `adapter.device(addr).ok()` for one address.  A
device is kept iff its UUID query returns `Ok(Some(uuids))` with the
vendor UUID among them; every other reply means "does not match". -/
def discover_galaxy_buds (poweredOk : Bool)
    (addrsReply : Option (List (Option BDevice))) :
    Except String (List BDevice) :=
  if poweredOk = false then Except.error "set_powered failed"
  else
    match addrsReply with
    | none => Except.error "device_addresses failed"
    | some addrs =>
      Except.ok ((addrs.filterMap id).filter fun device =>
        match device.uuidsReply with
        | UuidsReply.okSome us => us.contains SAMSUNG_SPP_UUID
        | _ => false)

/-- C9: devices whose UUID query fails or returns no UUID set are
silently skipped; `discover_galaxy_buds` still returns `Ok`, and the
result holds exactly the resolved devices whose query succeeded with a
UUID set containing the vendor SPP UUID. -/
theorem discover_filters_by_spp_uuid :
    ∀ (addrs : List (Option BDevice)),
      (∀ e, discover_galaxy_buds true (some addrs) ≠ Except.error e) ∧
      (∀ r, discover_galaxy_buds true (some addrs) = Except.ok r →
        ∀ d, d ∈ r ↔ (some d ∈ addrs ∧
          ∃ us, d.uuidsReply = UuidsReply.okSome us ∧ SAMSUNG_SPP_UUID ∈ us)) := by
  intro addrs
  constructor
  · intro e h
    simp [discover_galaxy_buds] at h
  · intro r hr d
    simp only [discover_galaxy_buds, Bool.true_eq_false, if_false] at hr
    injection hr with hr
    subst hr
    rw [List.mem_filter, List.mem_filterMap]
    constructor
    · rintro ⟨⟨a, ha, had⟩, hp⟩
      subst had
      refine ⟨ha, ?_⟩
      cases hq : d.uuidsReply with
      | err => rw [hq] at hp; cases hp
      | okNone => rw [hq] at hp; cases hp
      | okSome us =>
        rw [hq] at hp
        exact ⟨us, rfl, List.elem_iff.mp hp⟩
    · rintro ⟨ha, us, hq, hus⟩
      refine ⟨⟨some d, ha, rfl⟩, ?_⟩
      rw [hq]
      exact List.elem_iff.mpr hus

/-- Witness for `discover_filters_by_spp_uuid`: a concrete adapter with a
matching device, a failed query, an empty query and an unresolvable
address keeps exactly the matching device. -/
theorem discover_filters_by_spp_uuid_witness :
    (⟨0, UuidsReply.okSome [SAMSUNG_SPP_UUID]⟩ : BDevice) ∈
      ([⟨0, UuidsReply.okSome [SAMSUNG_SPP_UUID]⟩] : List BDevice) :=
  ((discover_filters_by_spp_uuid
      [some ⟨0, UuidsReply.okSome [SAMSUNG_SPP_UUID]⟩,
        some ⟨1, UuidsReply.err⟩, some ⟨2, UuidsReply.okNone⟩, none]).2
    [⟨0, UuidsReply.okSome [SAMSUNG_SPP_UUID]⟩] rfl
    ⟨0, UuidsReply.okSome [SAMSUNG_SPP_UUID]⟩).mpr
    ⟨by decide, [SAMSUNG_SPP_UUID], rfl, by decide⟩

/-- C4: any sequence of well-formed frames, concatenated in any order and
split at arbitrary byte boundaries into chunks, fed chunk by chunk with
the residual carried between calls, emits exactly those frames in order
and ends with an empty residual; feeding `A` then `B` yields the same
frame sequence as feeding `A ++ B`. -/
theorem framing_round_trip :
    ∀ (fs chunks : List (List Nat)), (∀ f ∈ fs, isFrame f) →
      chunks.flatten = fs.flatten →
      feedChunks [] chunks = (fs, []) ∧
      ∀ A B : List Nat, A ++ B = fs.flatten →
        (feedChunks [] [A, B]).1 = (feedChunks [] [A ++ B]).1 := by
  intro fs chunks hfs hj
  refine ⟨feedChunks_spec chunks fs [] hfs (Or.inl rfl) (by simpa using hj), ?_⟩
  intro A B hAB
  rw [feedChunks_spec [A, B] fs [] hfs (Or.inl rfl) (by simpa using hAB),
    feedChunks_spec [A ++ B] fs [] hfs (Or.inl rfl) (by simpa using hAB)]

/-- Witness for `framing_round_trip`: the frame `FE 00 00 61 DD` split
mid-frame into two chunks is reassembled into exactly that frame. -/
theorem framing_round_trip_witness :
    feedChunks [] [[254, 0], [0, 97, 221]] = ([[254, 0, 0, 97, 221]], []) :=
  (framing_round_trip [[254, 0, 0, 97, 221]] [[254, 0], [0, 97, 221]]
    (by decide) (by decide)).1

/-- C5: one extraction step of `process_buffer`, by cases: with a first
BOM at `s` and a first EOM at `e`, `s < e`, bytes before `s` are
discarded, the inclusive slice `[s, e]` is emitted, the buffer is drained
through `e` and the scan repeats; with a BOM at `s` but no EOM after it,
bytes before `s` are discarded and the rest is kept with nothing emitted;
with no BOM, the buffer is cleared and nothing is emitted. -/
theorem process_buffer_step_cases :
    ∀ buffer : List Nat,
      (∀ s e, findIdxOf BOM buffer = some s → findIdxOf EOM buffer = some e →
        s < e →
        process_buffer buffer =
          (((buffer.take (e + 1)).drop s) ::
              (process_buffer (buffer.drop (e + 1))).1,
            (process_buffer (buffer.drop (e + 1))).2)) ∧
      (∀ s, findIdxOf BOM buffer = some s → EOM ∉ buffer.drop (s + 1) →
        process_buffer buffer = ([], buffer.drop s)) ∧
      (BOM ∉ buffer → process_buffer buffer = ([], [])) := by
  intro buffer
  refine ⟨fun s e hs he hse => process_buffer_emit hs he hse, ?_, ?_⟩
  · intro s hs hno
    apply process_buffer_keep hs
    intro e he hse
    apply hno
    have h1 : (buffer.drop (s + 1)).get? (e - (s + 1)) = some EOM := by
      rw [List.get?_drop, show s + 1 + (e - (s + 1)) = e by omega]
      exact findIdxOf_get he
    exact List.get?_mem h1
  · intro h
    exact process_buffer_clear (findIdxOf_none_iff.mpr h)

/-- Witness for `process_buffer_step_cases`: on `FE 00 00 3C DD` the
complete-message case fires with `s = 0`, `e = 4` and emits the whole
buffer as one frame. -/
theorem process_buffer_step_cases_witness :
    process_buffer [254, 0, 0, 60, 221] = ([[254, 0, 0, 60, 221]], []) := by
  have h := (process_buffer_step_cases [254, 0, 0, 60, 221]).1 0 4 rfl rfl (by omega)
  rw [h]
  rfl

/-- C3 counterexample: the single garbage byte `0xDD` (an EOM — allowed,
since the claim only excludes BOM bytes) inserted between two frames
changes the emitted sequence: the second frame is withheld in the
residual instead of being emitted. -/
theorem garbage_with_eom_defers_frame :
    process_buffer ([254, 0, 0, 60, 221] ++ [221] ++ [254, 0, 0, 61, 221]) =
      ([[254, 0, 0, 60, 221]], [254, 0, 0, 61, 221]) ∧
    process_buffer ([254, 0, 0, 60, 221] ++ [254, 0, 0, 61, 221]) =
      ([[254, 0, 0, 60, 221], [254, 0, 0, 61, 221]], []) ∧
    ([[254, 0, 0, 60, 221]] : List (List Nat)) ≠
      [[254, 0, 0, 60, 221], [254, 0, 0, 61, 221]] := by
  refine ⟨by decide, by decide, by decide⟩

/-- C3 (amended): garbage inserted between frames leaves the emitted
sequence unchanged provided it contains neither BOM nor EOM bytes; and
garbage with no BOM before an incomplete frame is discarded with no frame
emitted. -/
theorem garbage_tolerance :
    (∀ (fs gs : List (List Nat)), (∀ f ∈ fs, isFrame f) →
      (∀ g ∈ gs, BOM ∉ g ∧ EOM ∉ g) →
      process_buffer (glue fs gs) = (fs, []) ∧
      process_buffer fs.flatten = (fs, [])) ∧
    (∀ (g t : List Nat), BOM ∉ g → IncompleteFrame t →
      process_buffer (g ++ t) = ([], t)) := by
  constructor
  · intro fs gs hfs hgs
    refine ⟨process_buffer_glue fs gs hfs hgs, ?_⟩
    have h := process_buffer_flatten hfs (Or.inl rfl)
    simpa using h
  · intro g t hg ht
    exact process_buffer_garbage_then_incomplete hg ht

/-- Witness for `garbage_tolerance`: BOM-and-EOM-free garbage `[7, 8]`
between two frames leaves the emitted pair unchanged. -/
theorem garbage_tolerance_witness :
    process_buffer (glue [[254, 0, 0, 60, 221], [254, 0, 0, 61, 221]] [[7, 8]]) =
      ([[254, 0, 0, 60, 221], [254, 0, 0, 61, 221]], []) :=
  (garbage_tolerance.1 [[254, 0, 0, 60, 221], [254, 0, 0, 61, 221]] [[7, 8]]
    (by decide) (by decide)).1

/-- C2 counterexample: processing `[EOM, BOM, 0, EOM]` leaves the residual
`[BOM, 0, EOM]`, which is nonempty, begins at a BOM but contains an EOM
past it, and contains a BOM — all three disjuncts of the claimed
invariant fail. -/
theorem residual_invariant_fails :
    process_buffer [221, 254, 0, 221] = ([], [254, 0, 221]) ∧
    ¬ (([254, 0, 221] : List Nat) = [] ∨
        (([254, 0, 221] : List Nat).head? = some BOM ∧
          EOM ∉ ([254, 0, 221] : List Nat).tail) ∨
        BOM ∉ ([254, 0, 221] : List Nat)) := by
  refine ⟨by decide, by decide⟩

/-- C2 (amended): after every call to `process_buffer` the residual
buffer is empty, or begins at a BOM byte (an EOM may still follow it,
cf. `residual_invariant_fails`), or contains no BOM at all. -/
theorem process_buffer_residual_shape :
    ∀ buffer : List Nat,
      (process_buffer buffer).2 = [] ∨
      ((process_buffer buffer).2).head? = some BOM ∨
      BOM ∉ (process_buffer buffer).2 := by
  intro buffer
  rcases process_buffer_residual_aux buffer.length buffer (Nat.le_refl _) with h | h
  · exact Or.inl h
  · exact Or.inr (Or.inl h)

/-- C1 counterexample: in a Connected session, a Disconnect input
followed by the reader task hitting EOF emits `Disconnected` twice — once
from the Disconnect arm of `handle_input`, once from the reader's
unconditional terminal emit. -/
theorem disconnect_then_eof_two_disconnected :
    List.count BWOutput.disconnected
      (runEvents connectedInit [BWEvent.disconnect, BWEvent.readerEof]).2 = 2 := by
  decide

/-- C1 (amended): over every interleaving from a Connected session, the
number of `Disconnected` outputs equals the number of `Disconnect` inputs
handled plus one if the reader task exited: a session ended by reader
EOF/error alone observes exactly one `Disconnected`; a session with a
`Disconnect` input whose reader then exits observes two. -/
theorem disconnected_count :
    ∀ evs : List BWEvent,
      List.count BWOutput.disconnected (runEvents connectedInit evs).2 =
        List.count BWEvent.disconnect evs +
          (if (runEvents connectedInit evs).1.readerExited then 1 else 0) := by
  intro evs
  have h := runEvents_count_disc evs connectedInit
  simpa [connectedInit] using h

/-- C8 counterexample: in the Idle state a Disconnect input emits a
`Disconnected` output — it is not silent. -/
theorem idle_disconnect_emits_output :
    (stepEvent idleInit BWEvent.disconnect).2 = [BWOutput.disconnected] ∧
    ([BWOutput.disconnected] : List BWOutput) ≠ [] := by
  exact ⟨rfl, by simp⟩

/-- C8 (amended): in the Idle state a Disconnect input leaves the state
unchanged (writer slot stays empty, running stays false) but still emits
exactly one `Disconnected` output. -/
theorem idle_disconnect_state_unchanged :
    stepEvent idleInit BWEvent.disconnect = (idleInit, [BWOutput.disconnected]) := rfl

/-- C10: only a Disconnect input clears the writer slot; after the reader
exits on EOF the writer stays stored, so a subsequent SendData does not
emit the "Cannot send data: Not connected" error but attempts the write,
emitting nothing on success and a send-failure error otherwise. -/
theorem writer_survives_reader_exit :
    (∀ (s : BWState) (e : BWEvent), e ≠ BWEvent.disconnect →
      (stepEvent s e).1.writerSome = s.writerSome) ∧
    (∀ (d : List Nat) (res : Option String),
      (runEvents connectedInit
          [BWEvent.readerEof, BWEvent.sendData d res]).1.writerSome = true ∧
      (runEvents connectedInit [BWEvent.readerEof, BWEvent.sendData d res]).2 =
        BWOutput.disconnected ::
          (match res with
            | none => []
            | some m => [BWOutput.error (BWError.sendDataFailed m)]) ∧
      BWOutput.error BWError.notConnected ∉
        (runEvents connectedInit [BWEvent.readerEof, BWEvent.sendData d res]).2) := by
  constructor
  · intro s e he
    cases e with
    | disconnect => exact absurd rfl he
    | sendData d w =>
      simp only [stepEvent]
      split
      · cases w <;> rfl
      · rfl
    | readerChunk b => simp only [stepEvent]; split <;> rfl
    | readerEof => simp only [stepEvent]; split <;> rfl
    | readerErr e2 =>
      simp only [stepEvent]
      split
      · rfl
      · split <;> rfl
    | readerStop =>
      simp only [stepEvent]
      split
      · rfl
      · split <;> rfl
  · intro d res
    refine ⟨?_, ?_, ?_⟩
    · cases res <;> rfl
    · cases res <;> rfl
    · cases res with
      | none =>
        show BWOutput.error BWError.notConnected ∉ [BWOutput.disconnected]
        simp
      | some m =>
        show BWOutput.error BWError.notConnected ∉
          [BWOutput.disconnected, BWOutput.error (BWError.sendDataFailed m)]
        simp

/-- Witness for `writer_survives_reader_exit`: the reader's EOF step
leaves the writer slot of a Connected session untouched. -/
theorem writer_survives_reader_exit_witness :
    (stepEvent connectedInit BWEvent.readerEof).1.writerSome =
      connectedInit.writerSome :=
  writer_survives_reader_exit.1 connectedInit BWEvent.readerEof (by decide)

/-- C6: the classifier of src/model/buds_message.rs has no
`NOISE_CONTROLS_UPDATED` arm and `BudsMessage` no `NoiseControlsUpdate`
variant: a length-≥-4 frame whose id byte is any value other than
`STATUS_UPDATED`, `EXTENDED_STATUS_UPDATED` and 242 — shown here for 120
as a representative value of the external `NOISE_CONTROLS_UPDATED`
constant — is classified `Unknown`, although the live caller
page_manage.rs pattern-matches a `BudsMessage::NoiseControlsUpdate`
variant carrying the noise-control mode. -/
theorem noise_controls_id_classified_unknown :
    from_bytes [254, 0, 0, 120, 221] =
      some (BudsMessage.unknown 120 [254, 0, 0, 120, 221]) := by
  decide

/-- C7 counterexample: a buffer shorter than 4 bytes is silently dropped
(`None`, the ignore sentinel otherwise reserved for id 242), not
classified as an `Unknown` message. -/
theorem from_bytes_short_returns_none :
    from_bytes [0, 0, 0] = none ∧
    (none : Option BudsMessage) ≠ some (BudsMessage.unknown 0 [0, 0, 0]) := by
  exact ⟨rfl, by simp⟩

/-- C7 (amended): classification never returns an error: every buffer of
length ≥ 4 whose id byte is not 242 is classified (ids other than
`STATUS_UPDATED` and `EXTENDED_STATUS_UPDATED` yield `Unknown` carrying
the id and the raw buffer); buffers shorter than 4 bytes, like frames
with id 242, map to the ignore sentinel `none`. -/
theorem from_bytes_classification :
    ∀ buff : List Nat,
      (buff.length < 4 → from_bytes buff = none) ∧
      (4 ≤ buff.length → buff.getD 3 0 = 242 → from_bytes buff = none) ∧
      (4 ≤ buff.length → buff.getD 3 0 ≠ 242 →
        ∃ m, from_bytes buff = some m) ∧
      (4 ≤ buff.length → buff.getD 3 0 ≠ 242 →
        buff.getD 3 0 ≠ STATUS_UPDATED → buff.getD 3 0 ≠ EXTENDED_STATUS_UPDATED →
        from_bytes buff = some (BudsMessage.unknown (buff.getD 3 0) buff)) := by
  intro buff
  refine ⟨?_, ?_, ?_, ?_⟩
  · intro h
    simp [from_bytes, h]
  · intro h4 h242
    have hn : ¬ buff.length < 4 := by omega
    simp only [from_bytes]
    rw [if_neg hn, if_pos h242]
  · intro h4 h242
    have hn : ¬ buff.length < 4 := by omega
    simp only [from_bytes, hn, if_false, h242]
    split
    · exact ⟨_, rfl⟩
    · split
      · exact ⟨_, rfl⟩
      · exact ⟨_, rfl⟩
  · intro h4 h242 hS hE
    have hn : ¬ buff.length < 4 := by omega
    simp only [from_bytes]
    rw [if_neg hn, if_neg h242, if_neg hS, if_neg hE]

/-- Witness for `from_bytes_classification`: the length-5 frame with the
unrecognized id 60 is classified `Unknown{id: 60, buffer}`. -/
theorem from_bytes_classification_witness :
    from_bytes [254, 0, 0, 60, 221] =
      some (BudsMessage.unknown 60 [254, 0, 0, 60, 221]) := by
  have h := (from_bytes_classification [254, 0, 0, 60, 221]).2.2.2
    (by decide) (by decide) (by decide) (by decide)
  exact h
